import Mathlib

/-!
Shallow embedding of the GoTile tile-coding library.

Float64 values are modelled as rationals, machine integers as Int/Nat.
The external gonum vector/matrix layer is modelled by lists; operations
that gonum aborts on a shape mismatch are modelled in the Except monad.
The external seeded uniform sampler used at tiling construction time is
a parameter of the construction functions.
-/

namespace GoTile

/-- Clip clips a value to be in the interval from lo to hi
(floatutils.Clip from the source: below lo gives lo, above hi gives hi). -/
def Clip {α : Type} [LinearOrder α] (f lo hi : α) : α :=
  if f < lo then lo
  else if f > hi then hi
  else f

/-- prod calculates the product of all integers in a list (source prod). -/
def prod (l : List ℤ) : ℤ := l.foldl (· * ·) 1

/-- Construction errors of the source, named by the taxonomy of the spec.
The source returns the dimension-disagreement errors of NewTiling as
DimensionMismatch and the empty-bins error as InvalidConfiguration. -/
inductive TilingError
  | dimensionMismatch
  | invalidConfiguration
deriving DecidableEq

/-- Default offset divisor (source constant OffsetDiv = 1.5). -/
def OffsetDiv : ℚ := 3 / 2

/-- Tiling is a grid of tiles over a bounded box, mirroring the source
struct field for field (maxDims is not stored by the source either). -/
structure Tiling where
  offsets : List ℚ
  bins : List ℤ
  binLengths : List ℚ
  minDims : List ℚ
  seed : ℕ
deriving DecidableEq

instance : Inhabited Tiling := ⟨⟨[], [], [], [], 0⟩⟩

/-- Per-dimension bin lengths computed by NewTiling:
binLength i = (maxDims i - minDims i) / bins i. -/
def tilingBinLengths (minDims maxDims : List ℚ) (bins : List ℤ) : List ℚ :=
  (List.range minDims.length).map fun i =>
    (maxDims.getD i 0 - minDims.getD i 0) / (bins.getD i 0 : ℚ)

/-- The per-dimension sampling intervals NewTiling hands to the uniform
sampler. The source computes bound = binLength / OffsetDiv with the
package constant OffsetDiv; the offsetDiv argument of NewTiling is never
read, so this definition has no offsetDiv parameter. -/
def offsetBounds (minDims maxDims : List ℚ) (bins : List ℤ) : List (ℚ × ℚ) :=
  (tilingBinLengths minDims maxDims bins).map fun bl =>
    (-(bl / OffsetDiv), bl / OffsetDiv)

/-- NewTiling from the source. The seeded uniform sampler (an external
collaborator: rand plus distmv plus samplemv) is abstracted as the
function argument sample, which receives the seed and the per-dimension
sampling intervals and returns the sampled offsets. -/
def NewTiling (sample : ℕ → List (ℚ × ℚ) → List ℚ) (minDims maxDims : List ℚ)
    (bins : List ℤ) (seed : ℕ) (offsetDiv : ℚ) : Except TilingError Tiling :=
  if minDims.length ≠ maxDims.length then .error .dimensionMismatch
  else if bins.length = 0 then .error .invalidConfiguration
  else if bins.length ≠ minDims.length then .error .dimensionMismatch
  else
    .ok ⟨sample seed (offsetBounds minDims maxDims bins), bins,
      tilingBinLengths minDims maxDims bins, minDims, seed⟩

/-- One iteration of the loop body of Tiling.Index for a single
dimension: offset the coordinate, floor-divide by the bin length, clip
into the valid tile range. -/
def dimTileAt (off mind bl : ℚ) (b : ℤ) (x : ℚ) : ℤ :=
  Clip ⌊(x + off - mind) / bl⌋ 0 (b - 1)

/-- The tile of vector v along dimension i of tiling t. -/
def Tiling.dimTile (t : Tiling) (v : List ℚ) (i : ℕ) : ℤ :=
  dimTileAt (t.offsets.getD i 0) (t.minDims.getD i 0) (t.binLengths.getD i 0)
    (t.bins.getD i 0) (v.getD i 0)

/-- The multiplier the source applies to the tile of the head dimension:
1 for the last dimension, otherwise the bin count of the next dimension. -/
def strideHead : List (ℤ × ℤ) → ℤ
  | [] => 1
  | (_, b) :: _ => b

/-- Accumulation of Tiling.Index over (tile, bin) pairs in dimension
order: each tile is multiplied by the bin count of the next dimension
(the source line index += tileIndex * t.bins[i+1]), the last by 1. -/
def indexCore : List (ℤ × ℤ) → ℤ
  | [] => 0
  | (tile, _) :: rest => tile * strideHead rest + indexCore rest

/-- The (tile, bin) pair of every dimension of tiling t at vector v. -/
def Tiling.dims (t : Tiling) (v : List ℚ) : List (ℤ × ℤ) :=
  (List.range t.bins.length).map fun i => (t.dimTile v i, t.bins.getD i 0)

/-- Index will return the index of the tile within which v falls
(source Tiling.Index). -/
def Tiling.Index (t : Tiling) (v : List ℚ) : ℤ :=
  indexCore (t.dims v)

/-- Tiles returns the number of tiles in the tiling. -/
def Tiling.Tiles (t : Tiling) : ℤ := prod t.bins

/-- Elementwise a + alpha * b of gonum VecDense.AddScaledVec, which
aborts with a shape mismatch when the two vectors differ in length. -/
def addScaledVec (a : List ℚ) (alpha : ℚ) (b : List ℚ) : Except String (List ℚ) :=
  if a.length = b.length then .ok (List.zipWith (fun x y => x + alpha * y) a b)
  else .error "mat: dimension mismatch"

/-- Elementwise a + b of gonum VecDense.AddVec, which aborts with a
shape mismatch when the two vectors differ in length. -/
def addVec (a b : List ℚ) : Except String (List ℚ) :=
  if a.length = b.length then .ok (List.zipWith (· + ·) a b)
  else .error "mat: dimension mismatch"

/-- VecFloor performs an element-wise floor division of a vector by a
constant (matutils.VecFloor). -/
def VecFloor (a : List ℚ) (b : ℚ) : List ℚ :=
  a.map fun x => (⌊x / b⌋ : ℚ)

/-- VecClip clips every element of a vector into the interval from lo
to hi (matutils.VecClip). -/
def VecClip (a : List ℚ) (lo hi : ℚ) : List ℚ :=
  a.map fun x => Clip x lo hi

/-- One iteration (dimension i) of the loop of Tiling.IndexBatch. The
batch b is the list of rows of the input matrix; ones is the vector of
ones the source sizes by the ROW count of b; index is the accumulator.
Reading a row out of range aborts, as gonum RowView does. -/
def Tiling.indexBatchStep (t : Tiling) (b : List (List ℚ)) (ones : List ℚ)
    (index : List ℚ) (i : ℕ) : Except String (List ℚ) := do
  if i < b.length then
    let data := b.getD i []
    let data ← addScaledVec data (t.offsets.getD i 0) ones
    let data ← addScaledVec data (-(t.minDims.getD i 0)) ones
    let data := VecFloor data (t.binLengths.getD i 0)
    let data := VecClip data 0 ((t.bins.getD i 0 : ℚ) - 1)
    if i = t.bins.length - 1 then addVec index data
    else addScaledVec index (t.bins.getD (i + 1) 0 : ℚ) data
  else .error "mat: row index out of range"

/-- IndexBatch from the source: the workspace vectors ones and index are
allocated with the ROW count of b, the loop runs over the dimensions
from last to first. -/
def Tiling.IndexBatch (t : Tiling) (b : List (List ℚ)) : Except String (List ℚ) :=
  let rows := b.length
  let ones := List.replicate rows (1 : ℚ)
  (List.range t.bins.length).reverse.foldlM (t.indexBatchStep b ones)
    (List.replicate rows (0 : ℚ))

/-- TileCoder owns an ordered collection of tilings and the bias flag
(the channels and wait group of the source are the concurrency plumbing
modelled by the arrival-order parameter of EncodeIndices). -/
structure TileCoder where
  tilings : List Tiling
  includeBias : Bool
deriving DecidableEq

/-- buildTilings is the construction loop of New: one NewTiling call per
bin specification, returning the first failure. The source (an older
revision than the Tiling file) passes no offsetDiv argument; since
NewTiling never reads offsetDiv, the constant OffsetDiv is passed here. -/
def buildTilings (sample : ℕ → List (ℚ × ℚ) → List ℚ) (minDims maxDims : List ℚ)
    (binsList : List (List ℤ)) (seed : ℕ) : Except TilingError (List Tiling) :=
  match binsList with
  | [] => .ok []
  | bs :: rest => do
    let t ← NewTiling sample minDims maxDims bs seed OffsetDiv
    let ts ← buildTilings sample minDims maxDims rest seed
    .ok (t :: ts)

/-- New creates and returns a new TileCoder (source New), propagating
the first tiling-construction failure. -/
def New (sample : ℕ → List (ℚ × ℚ) → List ℚ) (minDims maxDims : List ℚ)
    (bins : List (List ℤ)) (seed : ℕ) (includeBias : Bool) :
    Except TilingError TileCoder :=
  (buildTilings sample minDims maxDims bins seed).map fun ts => ⟨ts, includeBias⟩

/-- NumTilings returns the number of tilings the tile coder uses. -/
def TileCoder.NumTilings (t : TileCoder) : ℕ := t.tilings.length

/-- The local bias variable of the source: 1 if a bias unit is used. -/
def TileCoder.biasUnit (t : TileCoder) : ℤ := if t.includeBias then 1 else 0

/-- featuresBeforeTiling calculates how many features exist in the
tile-coded representation before tiling number i. -/
def TileCoder.featuresBeforeTiling (t : TileCoder) (i : ℕ) : ℤ :=
  ((t.tilings.take i).map Tiling.Tiles).sum

/-- encodeWithTiling returns the index of the tile-coded feature vector
which should be 1.0 when v is encoded with the given tiling number. -/
def TileCoder.encodeWithTiling (t : TileCoder) (v : List ℚ) (tiling : ℕ) : ℤ :=
  t.featuresBeforeTiling tiling + (t.tilings.getD tiling default).Index v + t.biasUnit

/-- EncodeIndices from the source. The source computes the per-tiling
results in one goroutine each; every result is sent on a shared channel
and the collector stores the i-th RECEIVED value at slot i, so the k
per-tiling entries appear in channel-arrival order, an arbitrary
permutation of the tiling order. The arrival parameter makes that
nondeterminism explicit: a run of the source corresponds to some
arrival that is a permutation of the list of tiling numbers. The bias
slot is written last, after the collector finished. -/
def TileCoder.EncodeIndices (t : TileCoder) (v : List ℚ) (arrival : List ℕ) : List ℤ :=
  arrival.map (t.encodeWithTiling v) ++ (if t.includeBias then [0] else [])

/-- VecLength returns the number of features in a tile-coded vector. -/
def TileCoder.VecLength (t : TileCoder) : ℤ :=
  (t.tilings.map Tiling.Tiles).sum + t.biasUnit

/-- The scatter loop shared by Encode and ToVector of the source: write
1.0 into a fresh zero vector at every listed position. -/
def scatterOnes (n : ℕ) (idxs : List ℤ) : List ℚ :=
  idxs.foldl (fun acc i => acc.set i.toNat 1) (List.replicate n (0 : ℚ))

/-- Encode encodes a single vector as a tile-coded vector. -/
def TileCoder.Encode (t : TileCoder) (v : List ℚ) (arrival : List ℕ) : List ℚ :=
  scatterOnes t.VecLength.toNat (t.EncodeIndices v arrival)

/-- ToVector converts a vector of non-zero indices to a tile-coded
vector. -/
def TileCoder.ToVector (t : TileCoder) (v : List ℤ) : List ℚ :=
  scatterOnes t.VecLength.toNat v

/-- The scan loop of ToIndices with the running position i: the source
appends position i when the entry is NOT 0.0, and otherwise (entry
equal to 0.0) takes the else-if branch entry not equal to 1.0, which
always holds, and aborts. -/
def toIndicesLoop : List ℚ → ℕ → Except String (List ℤ)
  | [], _ => .ok []
  | x :: xs, i =>
    if x ≠ 0 then (toIndicesLoop xs (i + 1)).map fun rest => (i : ℤ) :: rest
    else if x ≠ 1 then .error "toIndices: vector is not a tile-coded vector"
    else toIndicesLoop xs (i + 1)

/-- ToIndices converts a tile-coded vector to a vector of non-zero
indices. The final wrapping of the collected positions into a vector of
length NumTilings (gonum NewVecDense) aborts when the count differs. -/
def TileCoder.ToIndices (t : TileCoder) (v : List ℚ) : Except String (List ℤ) := do
  let idxs ← toIndicesLoop v 0
  if idxs.length = t.NumTilings then .ok idxs
  else .error "mat: dimension mismatch"

/-- Status projection of a construction result: the error if any. -/
def statusOf {α : Type} : Except TilingError α → Option TilingError
  | .ok _ => none
  | .error e => some e

/-- Wellformedness of a coder as the claims assume it: every tiling has
only positive bin counts and positive bin lengths. -/
def TileCoder.Wellformed (t : TileCoder) : Prop :=
  ∀ til ∈ t.tilings, (∀ b ∈ til.bins, 1 ≤ b) ∧ (∀ bl ∈ til.binLengths, 0 < bl)

/-- Modelled from the spec: the sampler contract of the external seeded
uniform-distribution collaborator — whenever an interval is nonempty the
sampled coordinate lies inside it, and one coordinate is drawn per
interval. -/
def SamplerInBounds (sample : ℕ → List (ℚ × ℚ) → List ℚ) : Prop :=
  ∀ seed bounds, (sample seed bounds).length = bounds.length ∧
    ∀ i, i < bounds.length → (bounds.getD i (0, 0)).1 ≤ (bounds.getD i (0, 0)).2 →
      (bounds.getD i (0, 0)).1 ≤ (sample seed bounds).getD i 0 ∧
      (sample seed bounds).getD i 0 ≤ (bounds.getD i (0, 0)).2

/-- A concrete sampler satisfying the contract: the interval midpoint. -/
def midSampler : ℕ → List (ℚ × ℚ) → List ℚ :=
  fun _ bounds => bounds.map fun p => (p.1 + p.2) / 2

/-- Modelled from the spec: row-major flattening of the per-dimension
tile indices — each tile is multiplied by the product of the bin counts
of ALL later dimensions. Stated from the words of the spec for
comparison with the Index of the source. -/
def rowMajorIndex (t : Tiling) (v : List ℚ) : ℤ :=
  ((List.range t.bins.length).map fun i =>
    t.dimTile v i * prod (t.bins.drop (i + 1))).sum

/-- A one-bin tiling over the interval 0 to 1 with offset 0. -/
def T1 : Tiling := ⟨[0], [1], [1], [0], 0⟩

/-- A two-bin tiling over the interval 0 to 1 with offset 0. -/
def T2 : Tiling := ⟨[0], [2], [1/2], [0], 0⟩

/-- A 2 by 2 by 2 tiling over the cube from 0 to 2 with offsets 0. -/
def T3 : Tiling := ⟨[0, 0, 0], [2, 2, 2], [1, 1, 1], [0, 0, 0], 0⟩

/-- A 2 by 3 tiling over the square from 0 to 5 with offsets 0. -/
def TB2 : Tiling := ⟨[0, 0], [2, 3], [5/2, 5/3], [0, 0], 0⟩

/-- A two-tiling coder without bias unit. -/
def tc2 : TileCoder := ⟨[T1, T2], false⟩

/-- A two-tiling coder with bias unit. -/
def tcB : TileCoder := ⟨[T1, T2], true⟩

/- ------------------------------------------------------------------
Helper lemmas
------------------------------------------------------------------ -/

lemma getD_range_map {α : Type} (f : ℕ → α) (d : α) {i n : ℕ} (h : i < n) :
    ((List.range n).map f).getD i d = f i := by
  rw [List.getD_eq_getElem?_getD, List.getElem?_map, List.getElem?_range h]
  rfl

lemma getD_map_of_lt {α β : Type} (f : α → β) (l : List α) (d : β) (d' : α)
    {i : ℕ} (h : i < l.length) : (l.map f).getD i d = f (l.getD i d') := by
  rw [List.getD_eq_getElem?_getD, List.getElem?_map,
    List.getElem?_eq_getElem h, List.getD_eq_getElem _ _ h]
  rfl

lemma le_Clip {α : Type} [LinearOrder α] (f lo hi : α) (h : lo ≤ hi) :
    lo ≤ Clip f lo hi := by
  unfold Clip
  split_ifs with h1 h2
  · exact le_refl lo
  · exact h
  · exact le_of_not_lt h1

lemma Clip_le {α : Type} [LinearOrder α] (f lo hi : α) (h : lo ≤ hi) :
    Clip f lo hi ≤ hi := by
  unfold Clip
  split_ifs with h1 h2
  · exact h
  · exact le_refl hi
  · exact le_of_not_lt h2

lemma Clip_eq_hi {α : Type} [LinearOrder α] {f lo hi : α} (h : lo ≤ hi)
    (hf : hi ≤ f) : Clip f lo hi = hi := by
  unfold Clip
  split_ifs with h1 h2
  · exact absurd (lt_of_le_of_lt hf h1) (not_lt_of_le h)
  · rfl
  · exact le_antisymm (le_of_not_lt h2) hf

lemma Clip_eq_lo {α : Type} [LinearOrder α] {f lo hi : α} (h : lo ≤ hi)
    (hf : f ≤ lo) : Clip f lo hi = lo := by
  unfold Clip
  split_ifs with h1 h2
  · rfl
  · exact absurd (lt_of_le_of_lt hf (lt_of_le_of_lt h h2)) (lt_irrefl f)
  · exact le_antisymm hf (le_of_not_lt h1)

lemma prod_eq_listProd (l : List ℤ) : prod l = l.prod := by
  rw [prod, List.prod_eq_foldl]

lemma one_le_prod {l : List ℤ} (h : ∀ b ∈ l, 1 ≤ b) : 1 ≤ prod l := by
  rw [prod_eq_listProd]
  induction l with
  | nil => simp
  | cons a l ih =>
    rw [List.prod_cons]
    have ha : 1 ≤ a := h a (List.mem_cons_self a l)
    have hl : 1 ≤ l.prod := ih fun b hb => h b (List.mem_cons_of_mem a hb)
    nlinarith

lemma strideHead_le_prod {ps : List (ℤ × ℤ)} (h : ∀ p ∈ ps, 1 ≤ p.2) :
    strideHead ps ≤ (ps.map Prod.snd).prod := by
  cases ps with
  | nil => simp [strideHead]
  | cons p rest =>
    rw [strideHead, List.map_cons, List.prod_cons]
    have h2 : 1 ≤ (rest.map Prod.snd).prod := by
      rw [← prod_eq_listProd]
      exact one_le_prod fun b hb => by
        obtain ⟨q, hq, rfl⟩ := List.mem_map.mp hb
        exact h q (List.mem_cons_of_mem p hq)
    have hp : 1 ≤ p.2 := h p (List.mem_cons_self p rest)
    nlinarith

lemma indexCore_bounds {ps : List (ℤ × ℤ)}
    (h : ∀ p ∈ ps, 1 ≤ p.2 ∧ 0 ≤ p.1 ∧ p.1 ≤ p.2 - 1) :
    0 ≤ indexCore ps ∧ indexCore ps ≤ (ps.map Prod.snd).prod - 1 := by
  induction ps with
  | nil => simp [indexCore]
  | cons p rest ih =>
    obtain ⟨hb, ht0, ht1⟩ := h p (List.mem_cons_self p rest)
    have hrest := ih fun q hq => h q (List.mem_cons_of_mem p hq)
    have hsnd : ∀ q ∈ rest, 1 ≤ q.2 := fun q hq => (h q (List.mem_cons_of_mem p hq)).1
    have hsh : strideHead rest ≤ (rest.map Prod.snd).prod := strideHead_le_prod hsnd
    have hsh1 : 1 ≤ strideHead rest := by
      cases rest with
      | nil => simp [strideHead]
      | cons q r => exact (h q (List.mem_cons_of_mem p (List.mem_cons_self q r))).1
    have hprod1 : 1 ≤ (rest.map Prod.snd).prod := le_trans hsh1 hsh
    constructor
    · rw [indexCore]
      nlinarith [hrest.1]
    · rw [indexCore, List.map_cons, List.prod_cons]
      nlinarith [hrest.2]

lemma dims_snd_eq (t : Tiling) (v : List ℚ) :
    (t.dims v).map Prod.snd = t.bins := by
  apply List.ext_getElem
  · simp [Tiling.dims]
  · intro i h1 h2
    simp only [Tiling.dims, List.map_map, List.getElem_map, List.getElem_range]
    exact List.getD_eq_getElem t.bins 0 h2

lemma dims_snd_prod (t : Tiling) (v : List ℚ) :
    ((t.dims v).map Prod.snd).prod = prod t.bins := by
  rw [dims_snd_eq, prod_eq_listProd]

lemma dimTile_bounds (t : Tiling) (v : List ℚ) (i : ℕ)
    (hb : 1 ≤ t.bins.getD i 0) :
    0 ≤ t.dimTile v i ∧ t.dimTile v i ≤ t.bins.getD i 0 - 1 := by
  have h01 : (0 : ℤ) ≤ t.bins.getD i 0 - 1 := by omega
  exact ⟨le_Clip _ _ _ h01, Clip_le _ _ _ h01⟩

/-- Shared bound on the single-vector index: within a tiling whose bin
counts are all at least one, Index lies between 0 and Tiles - 1. -/
lemma Index_bounds (t : Tiling) (v : List ℚ) (hb : ∀ b ∈ t.bins, 1 ≤ b) :
    0 ≤ t.Index v ∧ t.Index v ≤ t.Tiles - 1 := by
  have h : ∀ p ∈ t.dims v, 1 ≤ p.2 ∧ 0 ≤ p.1 ∧ p.1 ≤ p.2 - 1 := by
    intro p hp
    obtain ⟨i, hi, rfl⟩ := List.mem_map.mp hp
    have hiR : i < t.bins.length := List.mem_range.mp hi
    have hmem : t.bins.getD i 0 ∈ t.bins := by
      rw [List.getD_eq_getElem _ _ hiR]
      exact List.getElem_mem hiR
    have h1 : 1 ≤ t.bins.getD i 0 := hb _ hmem
    exact ⟨h1, dimTile_bounds t v i h1⟩
  have := indexCore_bounds h
  rwa [dims_snd_prod] at this

lemma statusOf_except_map {α β : Type} (f : α → β) (e : Except TilingError α) :
    statusOf (e.map f) = statusOf e := by
  cases e <;> rfl

lemma statusOf_buildTilings (sample : ℕ → List (ℚ × ℚ) → List ℚ)
    (m M : List ℚ) (binsList : List (List ℤ)) (seed : ℕ) :
    statusOf (buildTilings sample m M binsList seed) =
      binsList.findSome? fun bs => statusOf (NewTiling sample m M bs seed OffsetDiv) := by
  induction binsList with
  | nil => rfl
  | cons bs rest ih =>
    cases h : NewTiling sample m M bs seed OffsetDiv with
    | error e =>
      have hrhs : ((bs :: rest).findSome? fun b =>
          statusOf (NewTiling sample m M b seed OffsetDiv)) = some e := by
        rw [List.findSome?_cons, h]
        rfl
      rw [hrhs, buildTilings]
      simp only [h, Bind.bind, Except.bind]
      rfl
    | ok til =>
      have hrhs : ((bs :: rest).findSome? fun b =>
          statusOf (NewTiling sample m M b seed OffsetDiv)) =
          rest.findSome? fun b =>
            statusOf (NewTiling sample m M b seed OffsetDiv) := by
        rw [List.findSome?_cons, h]
        rfl
      rw [hrhs, ← ih, buildTilings]
      simp only [h, Bind.bind, Except.bind]
      cases buildTilings sample m M rest seed <;> rfl

lemma midSampler_inBounds : SamplerInBounds midSampler := by
  intro seed bounds
  constructor
  · simp [midSampler]
  · intro i hi hle
    simp only [midSampler]
    rw [getD_map_of_lt _ _ _ ((0 : ℚ), (0 : ℚ)) hi]
    constructor <;> linarith

/-- Inversion of a successful NewTiling: the three checks passed and
the fields of the tiling are the computed ones. -/
lemma NewTiling_ok {sample : ℕ → List (ℚ × ℚ) → List ℚ} {m M : List ℚ}
    {bins : List ℤ} {seed : ℕ} {od : ℚ} {t : Tiling}
    (h : NewTiling sample m M bins seed od = .ok t) :
    m.length = M.length ∧ bins ≠ [] ∧ bins.length = m.length ∧
    t = ⟨sample seed (offsetBounds m M bins), bins,
      tilingBinLengths m M bins, m, seed⟩ := by
  unfold NewTiling at h
  by_cases h1 : m.length ≠ M.length
  · rw [if_pos h1] at h
    exact absurd h (by simp)
  rw [if_neg h1] at h
  by_cases h2 : bins.length = 0
  · rw [if_pos h2] at h
    exact absurd h (by simp)
  rw [if_neg h2] at h
  by_cases h3 : bins.length ≠ m.length
  · rw [if_pos h3] at h
    exact absurd h (by simp)
  rw [if_neg h3] at h
  injection h with h4
  exact ⟨not_ne_iff.mp h1, fun he => h2 (by simp [he]), not_ne_iff.mp h3, h4.symm⟩

/- ------------------------------------------------------------------
Claim theorems
------------------------------------------------------------------ -/

/-- C7: for every valid tiling (positive bin counts and bin lengths)
and every input vector, Index lies in the interval from 0 to
Tiles - 1. -/
theorem C7_index_range (t : Tiling) (v : List ℚ)
    (hb : ∀ b ∈ t.bins, 1 ≤ b) (hbl : ∀ bl ∈ t.binLengths, 0 < bl) :
    0 ≤ t.Index v ∧ t.Index v ≤ t.Tiles - 1 :=
  Index_bounds t v hb

/-- C7 witness: the range bound instantiated at a concrete tiling and a
far out-of-bounds vector. -/
theorem C7_index_range_witness :
    (∀ b ∈ TB2.bins, 1 ≤ b) ∧ (∀ bl ∈ TB2.binLengths, 0 < bl) ∧
    (0 ≤ TB2.Index [100, -7] ∧ TB2.Index [100, -7] ≤ TB2.Tiles - 1) := by
  have h1 : ∀ b ∈ TB2.bins, (1 : ℤ) ≤ b := by decide
  have h2 : ∀ bl ∈ TB2.binLengths, (0 : ℚ) < bl := by
    intro bl hbl
    simp only [TB2, List.mem_cons, List.not_mem_nil, or_false] at hbl
    rcases hbl with rfl | rfl <;> norm_num
  exact ⟨h1, h2, C7_index_range TB2 [100, -7] h1 h2⟩

/-- C2: the source composes the scalar index by multiplying each
per-dimension tile by the bin count of only the NEXT dimension, not by
the product of all later bin counts; on a 2x2x2 tiling the tile (1,0,0)
gets index 2 while row-major flattening gives 4, and the distinct tile
(0,1,0) collides at the same index 2. -/
theorem C2_flattening_eval :
    T3.Index [1, 0, 0] = 2 ∧ rowMajorIndex T3 [1, 0, 0] = 4 ∧
    T3.Index [0, 1, 0] = 2 ∧ rowMajorIndex T3 [0, 1, 0] = 2 := by
  refine ⟨?_, ?_, ?_, ?_⟩ <;>
    norm_num [Tiling.Index, Tiling.dims, Tiling.dimTile, dimTileAt, indexCore,
      strideHead, rowMajorIndex, T3, prod, List.range_succ, Clip]

/-- C3: IndexBatch sizes its workspace vectors by the ROW count of the
batch although the rows have COLUMN-count entries, so any batch with
one feature row and two sample columns aborts with a gonum shape
mismatch instead of returning the per-column indices; on a square batch
the per-column equivalence does hold. -/
theorem C3_indexBatch_eval :
    T2.IndexBatch [[1/5, 7/10]] = .error "mat: dimension mismatch" ∧
    TB2.IndexBatch [[1, 2], [3, 4]] =
      .ok [(TB2.Index [1, 3] : ℚ), (TB2.Index [2, 4] : ℚ)] := by
  constructor
  · norm_num [Tiling.IndexBatch, Tiling.indexBatchStep, T2, addScaledVec,
      List.range_succ, Bind.bind, Except.bind]
  · norm_num [Tiling.IndexBatch, Tiling.indexBatchStep, TB2, addScaledVec, addVec,
      VecFloor, VecClip, Clip, List.range_succ, Bind.bind, Except.bind, Tiling.Index,
      Tiling.dims, Tiling.dimTile, dimTileAt, indexCore, strideHead, List.replicate,
      List.zipWith, Pure.pure, Except.pure, Function.comp]

/-- C4: the membership check of ToIndices is inverted — it accepts the
vector [0.5, 0.5] (entries not in 0.0/1.0), returning positions 0 and
1, and aborts on the genuine 0/1 vector [1, 1, 0] because its else-if
branch fires on every entry equal to 0.0. -/
theorem C4_toIndices_eval :
    tc2.ToIndices [1/2, 1/2] = .ok [0, 1] ∧
    tc2.ToIndices [1, 1, 0] =
      .error "toIndices: vector is not a tile-coded vector" := by
  constructor <;>
    norm_num [TileCoder.ToIndices, toIndicesLoop, tc2, TileCoder.NumTilings,
      Except.map, Bind.bind, Except.bind]

/-- C5: the round trip through ToIndices fails on every encoded vector
that contains a zero: Encode of the vector [0] under the two-tiling
coder is [1, 1, 0] and ToIndices aborts on it; the other round trip
ToVector of EncodeIndices equals Encode and holds definitionally. -/
theorem C5_roundTrip_eval :
    tc2.Encode [0] [0, 1] = [1, 1, 0] ∧
    tc2.ToIndices [1, 1, 0] =
      .error "toIndices: vector is not a tile-coded vector" ∧
    tc2.ToVector (tc2.EncodeIndices [0] [0, 1]) = tc2.Encode [0] [0, 1] := by
  refine ⟨?_, ?_, rfl⟩
  · norm_num [TileCoder.Encode, TileCoder.EncodeIndices, TileCoder.encodeWithTiling,
      TileCoder.featuresBeforeTiling, TileCoder.biasUnit, TileCoder.VecLength,
      scatterOnes, tc2, T1, T2, Tiling.Index, Tiling.dims, Tiling.dimTile, dimTileAt,
      indexCore, strideHead, Tiling.Tiles, prod, Clip, List.range_succ,
      List.replicate, List.set]
  · norm_num [TileCoder.ToIndices, toIndicesLoop, tc2, TileCoder.NumTilings,
      Except.map, Bind.bind, Except.bind]

/-- C9: NewTiling never reads its offsetDiv argument. Constructing over
the interval 0 to 3 with one bin (bin length 3) hands the sampler the
interval from -2 to 2 (the constant divisor 1.5), although a divisor of
3 as the claim reads it would give the interval from -1 to 1, and the
whole construction is unchanged under any other offsetDiv argument. -/
theorem C9_offsetDiv_eval :
    offsetBounds [0] [3] [1] = [(-2, 2)] ∧ (2 : ℚ) ≠ 3 / 3 ∧
    NewTiling midSampler [0] [3] [1] 0 3 =
      NewTiling midSampler [0] [3] [1] 0 (3/2) := by
  refine ⟨?_, ?_, rfl⟩
  · norm_num [offsetBounds, tilingBinLengths, OffsetDiv, List.range_succ]
  · norm_num

/-- C8 counterexample: a bin count of -1 (non-positive) is not rejected
by NewTiling — construction succeeds, while the claim demands an
InvalidConfiguration failure. -/
theorem C8_counterexample :
    statusOf (NewTiling midSampler [0] [1] [-1] 0 (3/2)) = none := by
  norm_num [NewTiling, statusOf]

lemma scatter_foldl_length (l : List ℤ) : ∀ acc : List ℚ,
    (l.foldl (fun a i => a.set i.toNat 1) acc).length = acc.length := by
  induction l with
  | nil => intro acc; rfl
  | cons d ds ih =>
    intro acc
    rw [List.foldl_cons, ih, List.length_set]

lemma scatterOnes_length (n : ℕ) (l : List ℤ) : (scatterOnes n l).length = n := by
  rw [scatterOnes, scatter_foldl_length, List.length_replicate]

lemma scatter_foldl_mem (l : List ℤ) : ∀ acc : List ℚ,
    (∀ q ∈ acc, q = 0 ∨ q = 1) →
    ∀ q ∈ l.foldl (fun a i => a.set i.toNat 1) acc, q = 0 ∨ q = 1 := by
  induction l with
  | nil => intro acc h; exact h
  | cons d ds ih =>
    intro acc h
    rw [List.foldl_cons]
    apply ih
    intro q hq
    rcases List.mem_or_eq_of_mem_set hq with h1 | h2
    · exact h q h1
    · exact Or.inr h2

lemma count_set_one : ∀ (l : List ℚ) (n : ℕ), n < l.length → l.getD n 1 ≠ 1 →
    (l.set n 1).count 1 = l.count 1 + 1 := by
  intro l
  induction l with
  | nil =>
    intro n hn _
    simp at hn
  | cons a as ih =>
    intro n hn hget
    cases n with
    | zero =>
      have ha : a ≠ 1 := by simpa using hget
      show ((1 : ℚ) :: as).count 1 = (a :: as).count 1 + 1
      rw [List.count_cons, List.count_cons]
      simp [ha]
    | succ n =>
      have hn' : n < as.length := by simpa using hn
      have hget' : as.getD n 1 ≠ 1 := by simpa using hget
      show (a :: as.set n 1).count 1 = (a :: as).count 1 + 1
      rw [List.count_cons, List.count_cons, ih n hn' hget']
      omega

lemma scatter_count : ∀ (ds : List ℕ) (acc : List ℚ), ds.Nodup →
    (∀ i ∈ ds, i < acc.length) → (∀ i ∈ ds, acc.getD i 1 = 0) →
    (ds.foldl (fun a i => a.set i 1) acc).count 1 = acc.count 1 + ds.length := by
  intro ds
  induction ds with
  | nil =>
    intro acc _ _ _
    simp
  | cons d rest ih =>
    intro acc hnd hlen hzero
    rw [List.foldl_cons]
    obtain ⟨hdnot, hndr⟩ := List.nodup_cons.mp hnd
    have hlen2 : ∀ i ∈ rest, i < (acc.set d 1).length := by
      intro i hi
      rw [List.length_set]
      exact hlen i (List.mem_cons_of_mem d hi)
    have hzero2 : ∀ i ∈ rest, (acc.set d 1).getD i 1 = 0 := by
      intro i hi
      have hne : d ≠ i := fun he => hdnot (he ▸ hi)
      rw [List.getD_eq_getElem?_getD, List.getElem?_set_ne hne,
        ← List.getD_eq_getElem?_getD]
      exact hzero i (List.mem_cons_of_mem d hi)
    rw [ih (acc.set d 1) hndr hlen2 hzero2,
      count_set_one acc d (hlen d (List.mem_cons_self d rest))
        (by rw [hzero d (List.mem_cons_self d rest)]; norm_num)]
    simp only [List.length_cons]
    omega

lemma fBT_nonneg {t : TileCoder} (hwf : t.Wellformed) (j : ℕ) :
    0 ≤ t.featuresBeforeTiling j := by
  apply List.sum_nonneg
  intro x hx
  obtain ⟨til, htil, rfl⟩ := List.mem_map.mp hx
  have hmem : til ∈ t.tilings := List.take_subset _ _ htil
  have h1 := one_le_prod (hwf til hmem).1
  rw [Tiling.Tiles]
  omega

lemma fBT_mono {t : TileCoder} (hwf : t.Wellformed) {i j : ℕ} (hij : i ≤ j) :
    t.featuresBeforeTiling i ≤ t.featuresBeforeTiling j := by
  unfold TileCoder.featuresBeforeTiling
  apply List.Sublist.sum_le_sum
  · apply List.Sublist.map
    have heq : t.tilings.take i = (t.tilings.take j).take i := by
      rw [List.take_take, min_eq_left hij]
    rw [heq]
    exact List.take_sublist i (t.tilings.take j)
  · intro a ha
    obtain ⟨til, htil, rfl⟩ := List.mem_map.mp ha
    have hmem : til ∈ t.tilings := List.take_subset _ _ htil
    have h1 := one_le_prod (hwf til hmem).1
    rw [Tiling.Tiles]
    omega

lemma fBT_succ {t : TileCoder} {j : ℕ} (hj : j < t.NumTilings) :
    t.featuresBeforeTiling (j + 1) =
      t.featuresBeforeTiling j + (t.tilings.getD j default).Tiles := by
  have hjt : j < t.tilings.length := hj
  unfold TileCoder.featuresBeforeTiling
  rw [List.take_succ, List.map_append, List.sum_append,
    List.getElem?_eq_getElem hjt]
  rw [List.getD_eq_getElem _ _ hjt]
  simp

lemma fBT_total {t : TileCoder} :
    t.featuresBeforeTiling t.NumTilings = (t.tilings.map Tiling.Tiles).sum := by
  unfold TileCoder.featuresBeforeTiling TileCoder.NumTilings
  rw [List.take_length]

lemma encodeWithTiling_bounds {t : TileCoder} (hwf : t.Wellformed) (v : List ℚ)
    {j : ℕ} (hj : j < t.NumTilings) :
    t.biasUnit ≤ t.encodeWithTiling v j ∧
    t.encodeWithTiling v j ≤ t.VecLength - 1 := by
  have hjt : j < t.tilings.length := hj
  have hmem : t.tilings.getD j default ∈ t.tilings := by
    rw [List.getD_eq_getElem _ _ hjt]
    exact List.getElem_mem hjt
  have hIdx := Index_bounds (t.tilings.getD j default) v (hwf _ hmem).1
  have hfbtn := fBT_nonneg hwf j
  constructor
  · unfold TileCoder.encodeWithTiling
    linarith [hIdx.1]
  · have hsucc := fBT_succ hj
    have hmono := fBT_mono hwf (Nat.succ_le_of_lt hj)
    rw [fBT_total] at hmono
    unfold TileCoder.encodeWithTiling TileCoder.VecLength
    linarith [hIdx.2]

lemma encodeWithTiling_strictMono {t : TileCoder} (hwf : t.Wellformed)
    (v : List ℚ) {j j2 : ℕ} (hjj : j < j2) (hj2 : j2 < t.NumTilings) :
    t.encodeWithTiling v j < t.encodeWithTiling v j2 := by
  have hj : j < t.NumTilings := lt_trans hjj hj2
  have hjt : j < t.tilings.length := hj
  have hj2t : j2 < t.tilings.length := hj2
  have hmemj : t.tilings.getD j default ∈ t.tilings := by
    rw [List.getD_eq_getElem _ _ hjt]
    exact List.getElem_mem hjt
  have hmemj2 : t.tilings.getD j2 default ∈ t.tilings := by
    rw [List.getD_eq_getElem _ _ hj2t]
    exact List.getElem_mem hj2t
  have hIdxj := Index_bounds (t.tilings.getD j default) v (hwf _ hmemj).1
  have hIdxj2 := Index_bounds (t.tilings.getD j2 default) v (hwf _ hmemj2).1
  have hsucc := fBT_succ hj
  have hmono := fBT_mono hwf (show j + 1 ≤ j2 from hjj)
  unfold TileCoder.encodeWithTiling
  linarith [hIdxj.2, hIdxj2.1]

/-- C1 (amended): for every arrival order that is a permutation of the
tiling numbers, EncodeIndices has length numTilings plus bias, its
first numTilings entries are a permutation of the values
featuresBeforeTiling(j) + tilings(j).Index(v) + bias over the tilings
j, and on a bias coder the last entry is 0; entry positions follow the
arrival order, not necessarily the tiling insertion order. -/
theorem C1_amended_order (t : TileCoder) (v : List ℚ) (σ : List ℕ)
    (hσ : σ.Perm (List.range t.NumTilings)) :
    (t.EncodeIndices v σ).length =
      t.NumTilings + (if t.includeBias then 1 else 0) ∧
    ((t.EncodeIndices v σ).take t.NumTilings).Perm
      ((List.range t.NumTilings).map fun j =>
        t.featuresBeforeTiling j + (t.tilings.getD j default).Index v +
          t.biasUnit) ∧
    (t.includeBias = true → (t.EncodeIndices v σ).getLast? = some 0) := by
  have hlen : σ.length = t.NumTilings := by
    simpa using hσ.length_eq
  refine ⟨?_, ?_, ?_⟩
  · rw [TileCoder.EncodeIndices, List.length_append, List.length_map, hlen]
    cases t.includeBias <;> simp
  · have htake : (t.EncodeIndices v σ).take t.NumTilings =
        σ.map (t.encodeWithTiling v) := by
      rw [TileCoder.EncodeIndices]
      exact List.take_left' (by rw [List.length_map, hlen])
    rw [htake]
    exact hσ.map (t.encodeWithTiling v)
  · intro hb
    rw [TileCoder.EncodeIndices, hb, if_pos rfl]
    exact List.getLast?_concat _

/-- C1 amended witness: the amended statement instantiated at the
two-tiling bias coder with the reversed arrival order. -/
theorem C1_amended_order_witness :
    ([1, 0] : List ℕ).Perm (List.range tcB.NumTilings) ∧
    ((tcB.EncodeIndices [0] [1, 0]).length =
      tcB.NumTilings + (if tcB.includeBias then 1 else 0) ∧
    ((tcB.EncodeIndices [0] [1, 0]).take tcB.NumTilings).Perm
      ((List.range tcB.NumTilings).map fun j =>
        tcB.featuresBeforeTiling j + (tcB.tilings.getD j default).Index [0] +
          tcB.biasUnit) ∧
    (tcB.includeBias = true →
      (tcB.EncodeIndices [0] [1, 0]).getLast? = some 0)) :=
  ⟨by decide, C1_amended_order tcB [0] [1, 0] (by decide)⟩

/-- C8 (amended): NewTiling fails with DimensionMismatch exactly when
the bounds lengths disagree or bins is nonempty with a length that
disagrees with minDims, fails with InvalidConfiguration exactly when
the bounds lengths agree and bins is empty, and otherwise succeeds
(non-positive bin counts and non-positive offsetDiv are not rejected);
New returns the status of the first failing tiling construction. -/
theorem C8_amended_errors (sample : ℕ → List (ℚ × ℚ) → List ℚ) (m M : List ℚ)
    (bins : List ℤ) (binsList : List (List ℤ)) (seed : ℕ) (od : ℚ)
    (bias : Bool) :
    (NewTiling sample m M bins seed od = .error .dimensionMismatch ↔
      m.length ≠ M.length ∨ (bins ≠ [] ∧ bins.length ≠ m.length)) ∧
    (NewTiling sample m M bins seed od = .error .invalidConfiguration ↔
      m.length = M.length ∧ bins = []) ∧
    (statusOf (NewTiling sample m M bins seed od) = none ↔
      m.length = M.length ∧ bins ≠ [] ∧ bins.length = m.length) ∧
    statusOf (New sample m M binsList seed bias) =
      binsList.findSome? fun bs =>
        statusOf (NewTiling sample m M bs seed OffsetDiv) := by
  have hmain :
      (NewTiling sample m M bins seed od = .error .dimensionMismatch ↔
        m.length ≠ M.length ∨ (bins ≠ [] ∧ bins.length ≠ m.length)) ∧
      (NewTiling sample m M bins seed od = .error .invalidConfiguration ↔
        m.length = M.length ∧ bins = []) ∧
      (statusOf (NewTiling sample m M bins seed od) = none ↔
        m.length = M.length ∧ bins ≠ [] ∧ bins.length = m.length) := by
    by_cases h1 : m.length = M.length
    · by_cases h2 : bins = []
      · have hval : NewTiling sample m M bins seed od =
            .error .invalidConfiguration := by
          unfold NewTiling
          rw [if_neg (not_ne_iff.mpr h1), if_pos (by simp [h2])]
        refine ⟨?_, ?_, ?_⟩ <;> rw [hval] <;> simp [h1, h2, statusOf]
      · by_cases h3 : bins.length = m.length
        · have hok : NewTiling sample m M bins seed od =
              .ok ⟨sample seed (offsetBounds m M bins), bins,
                tilingBinLengths m M bins, m, seed⟩ := by
            unfold NewTiling
            rw [if_neg (not_ne_iff.mpr h1),
              if_neg (fun hz => h2 (List.length_eq_zero.mp hz)),
              if_neg (not_ne_iff.mpr h3)]
          refine ⟨?_, ?_, ?_⟩ <;> rw [hok] <;> simp [h1, h2, h3, statusOf]
        · have hdm : NewTiling sample m M bins seed od =
              .error .dimensionMismatch := by
            unfold NewTiling
            rw [if_neg (not_ne_iff.mpr h1),
              if_neg (fun hz => h2 (List.length_eq_zero.mp hz)), if_pos h3]
          refine ⟨?_, ?_, ?_⟩ <;> rw [hdm] <;> simp [h1, h2, h3, statusOf] <;> omega
    · have hdm : NewTiling sample m M bins seed od =
          .error .dimensionMismatch := by
        unfold NewTiling
        rw [if_pos h1]
      refine ⟨?_, ?_, ?_⟩ <;> rw [hdm] <;> simp [h1, statusOf]
  refine ⟨hmain.1, hmain.2.1, hmain.2.2, ?_⟩
  rw [New, statusOf_except_map, statusOf_buildTilings]

lemma dimTileAt_high {off mind bl : ℚ} {b : ℤ} (hbl : 0 < bl) (hb : 1 ≤ b)
    (hoff : -bl < off) {x Mx : ℚ} (hMx : Mx = mind + b * bl) (hx : Mx ≤ x) :
    dimTileAt off mind bl b x = b - 1 := by
  have hfloor : (b - 1 : ℤ) ≤ ⌊(x + off - mind) / bl⌋ := by
    rw [Int.le_floor]
    rw [le_div_iff hbl]
    push_cast
    nlinarith
  exact Clip_eq_hi (by omega) hfloor

lemma dimTileAt_low {off mind bl : ℚ} {b : ℤ} (hbl : 0 < bl) (hb : 1 ≤ b)
    (hoff : off < bl) {x : ℚ} (hx : x ≤ mind) :
    dimTileAt off mind bl b x = 0 := by
  have hfloor : ⌊(x + off - mind) / bl⌋ ≤ 0 := by
    have hlt : ⌊(x + off - mind) / bl⌋ < 1 := by
      rw [Int.floor_lt]
      rw [div_lt_iff hbl]
      push_cast
      nlinarith
    omega
  exact Clip_eq_lo (by omega) hfloor

/-- C6: out-of-range coordinates saturate. For a tiling built by
NewTiling over valid per-dimension data (lower bound below upper bound,
at least one bin) with a sampler honoring the interval contract, a
coordinate at or beyond maxDims(i) lands in tile bins(i) - 1 of
dimension i and a coordinate at or below minDims(i) lands in tile 0;
dimTileAt is total, so no input vector can make Index fail. -/
theorem C6_clipping (sample : ℕ → List (ℚ × ℚ) → List ℚ)
    (hs : SamplerInBounds sample) (m M : List ℚ) (bins : List ℤ) (seed : ℕ)
    (od : ℚ) (t : Tiling) (h : NewTiling sample m M bins seed od = .ok t)
    (i : ℕ) (hi : i < bins.length) (hb : 1 ≤ bins.getD i 0)
    (hmM : m.getD i 0 < M.getD i 0) (x : ℚ) :
    (M.getD i 0 ≤ x →
      dimTileAt (t.offsets.getD i 0) (t.minDims.getD i 0)
        (t.binLengths.getD i 0) (t.bins.getD i 0) x = t.bins.getD i 0 - 1) ∧
    (x ≤ m.getD i 0 →
      dimTileAt (t.offsets.getD i 0) (t.minDims.getD i 0)
        (t.binLengths.getD i 0) (t.bins.getD i 0) x = 0) := by
  obtain ⟨hlen1, hne, hlen2, ht⟩ := NewTiling_ok h
  subst ht
  dsimp only
  have him : i < m.length := hlen2 ▸ hi
  have hblv : (tilingBinLengths m M bins).getD i 0 =
      (M.getD i 0 - m.getD i 0) / (bins.getD i 0 : ℚ) := by
    rw [tilingBinLengths, getD_range_map _ _ him]
  have hbq : (0 : ℚ) < (bins.getD i 0 : ℚ) := by
    exact_mod_cast lt_of_lt_of_le zero_lt_one hb
  have hblpos : 0 < (tilingBinLengths m M bins).getD i 0 := by
    rw [hblv]
    exact div_pos (sub_pos.mpr hmM) hbq
  have hlentbl : (tilingBinLengths m M bins).length = m.length := by
    simp [tilingBinLengths]
  have hitbl : i < (tilingBinLengths m M bins).length := hlentbl ▸ him
  have hbounds : (offsetBounds m M bins).getD i (0, 0) =
      (-((tilingBinLengths m M bins).getD i 0 / OffsetDiv),
        (tilingBinLengths m M bins).getD i 0 / OffsetDiv) := by
    rw [offsetBounds, getD_map_of_lt _ _ _ 0 hitbl]
  have hleno : i < (offsetBounds m M bins).length := by
    simpa [offsetBounds] using hitbl
  obtain ⟨hslen, hsb⟩ := hs seed (offsetBounds m M bins)
  have hOD : (0 : ℚ) < OffsetDiv := by norm_num [OffsetDiv]
  have hOD1 : (1 : ℚ) < OffsetDiv := by norm_num [OffsetDiv]
  have hdivle : (tilingBinLengths m M bins).getD i 0 / OffsetDiv <
      (tilingBinLengths m M bins).getD i 0 := by
    rw [div_lt_iff hOD]
    nlinarith [hblpos]
  have hoffb := hsb i hleno (by
    rw [hbounds]
    have hdp : 0 < (tilingBinLengths m M bins).getD i 0 / OffsetDiv :=
      div_pos hblpos hOD
    dsimp only
    linarith)
  rw [hbounds] at hoffb
  set off := (sample seed (offsetBounds m M bins)).getD i 0 with hoffdef
  have hoffl : -((tilingBinLengths m M bins).getD i 0) < off := by
    calc -((tilingBinLengths m M bins).getD i 0)
        < -((tilingBinLengths m M bins).getD i 0 / OffsetDiv) := by linarith
      _ ≤ off := hoffb.1
  have hoffr : off < (tilingBinLengths m M bins).getD i 0 :=
    lt_of_le_of_lt hoffb.2 hdivle
  have hMx : M.getD i 0 = m.getD i 0 +
      (bins.getD i 0 : ℚ) * (tilingBinLengths m M bins).getD i 0 := by
    rw [hblv, ← mul_div_assoc, mul_div_cancel_left₀ _ (ne_of_gt hbq)]
    ring
  constructor
  · intro hx
    have hx2 : m.getD i 0 +
        (bins.getD i 0 : ℚ) * (tilingBinLengths m M bins).getD i 0 ≤ x :=
      hMx ▸ hx
    exact dimTileAt_high hblpos hb hoffl rfl hx2
  · intro hx
    exact dimTileAt_low hblpos hb hoffr hx

/-- C6 witness: the saturation statement instantiated at a concrete
construction over the interval 0 to 3 with two bins and the midpoint
sampler, evaluated at the out-of-range coordinate 5. -/
theorem C6_clipping_witness :
    SamplerInBounds midSampler ∧
    NewTiling midSampler [0] [3] [2] 0 (3/2) = .ok ⟨[0], [2], [3/2], [0], 0⟩ ∧
    ((3 : ℚ) ≤ 5 → dimTileAt 0 0 (3/2) 2 5 = 2 - 1) ∧
    ((5 : ℚ) ≤ 0 → dimTileAt 0 0 (3/2) 2 5 = 0) := by
  have hok : NewTiling midSampler [0] [3] [2] 0 (3/2) =
      .ok ⟨[0], [2], [3/2], [0], 0⟩ := by
    norm_num [NewTiling, midSampler, offsetBounds, tilingBinLengths, OffsetDiv,
      List.range_succ]
  have happ := C6_clipping midSampler midSampler_inBounds [0] [3] [2] 0 (3/2)
    ⟨[0], [2], [3/2], [0], 0⟩ hok 0 (by decide) (by decide) (by norm_num) 5
  exact ⟨midSampler_inBounds, hok, happ.1, happ.2⟩

/-- C10: for a wellformed coder and any arrival order, the entries of
EncodeIndices are pairwise distinct and lie between 0 and VecLength - 1,
and Encode is a 0/1 vector of length VecLength with exactly
numTilings + bias entries equal to 1. -/
theorem C10_distinct_indices (t : TileCoder) (v : List ℚ) (σ : List ℕ)
    (hσ : σ.Perm (List.range t.NumTilings)) (hwf : t.Wellformed) :
    (t.EncodeIndices v σ).Pairwise (· ≠ ·) ∧
    (∀ x ∈ t.EncodeIndices v σ, 0 ≤ x ∧ x ≤ t.VecLength - 1) ∧
    (t.Encode v σ).length = t.VecLength.toNat ∧
    (∀ q ∈ t.Encode v σ, q = 0 ∨ q = 1) ∧
    (t.Encode v σ).count 1 =
      t.NumTilings + (if t.includeBias then 1 else 0) := by
  have hmemlt : ∀ j ∈ σ, j < t.NumTilings := fun j hj =>
    List.mem_range.mp (hσ.mem_iff.mp hj)
  have hσnd : σ.Nodup := hσ.nodup_iff.mpr (List.nodup_range t.NumTilings)
  have hbias0 : (0 : ℤ) ≤ t.biasUnit := by
    cases hB : t.includeBias <;> simp [TileCoder.biasUnit, hB]
  have hgb : ∀ j ∈ σ, t.biasUnit ≤ t.encodeWithTiling v j ∧
      t.encodeWithTiling v j ≤ t.VecLength - 1 := fun j hj =>
    encodeWithTiling_bounds hwf v (hmemlt j hj)
  have hmap : (σ.map (t.encodeWithTiling v)).Pairwise (· ≠ ·) := by
    rw [List.pairwise_map]
    refine List.Pairwise.imp_of_mem ?_ hσnd
    intro a b ha hb hne
    rcases Nat.lt_or_ge a b with h | h
    · exact ne_of_lt (encodeWithTiling_strictMono hwf v h (hmemlt b hb))
    · have hba : b < a := by omega
      exact (ne_of_lt (encodeWithTiling_strictMono hwf v hba (hmemlt a ha))).symm
  have hpair : (t.EncodeIndices v σ).Pairwise (· ≠ ·) := by
    rw [TileCoder.EncodeIndices]
    cases hB : t.includeBias with
    | false => simpa using hmap
    | true =>
      rw [if_pos rfl, List.pairwise_append]
      refine ⟨hmap, by simp, ?_⟩
      intro a ha b hb
      have hb0 : b = 0 := by simpa using hb
      subst hb0
      obtain ⟨j, hj, rfl⟩ := List.mem_map.mp ha
      have h1 := (hgb j hj).1
      have hbu : t.biasUnit = 1 := by simp [TileCoder.biasUnit, hB]
      rw [hbu] at h1
      intro he
      rw [he] at h1
      exact absurd h1 (by norm_num)
  have hbnd : ∀ x ∈ t.EncodeIndices v σ, 0 ≤ x ∧ x ≤ t.VecLength - 1 := by
    intro x hx
    rw [TileCoder.EncodeIndices] at hx
    rcases List.mem_append.mp hx with hx1 | hx2
    · obtain ⟨j, hj, rfl⟩ := List.mem_map.mp hx1
      exact ⟨le_trans hbias0 (hgb j hj).1, (hgb j hj).2⟩
    · cases hB : t.includeBias with
      | false =>
        rw [hB] at hx2
        simp at hx2
      | true =>
        rw [hB] at hx2
        have hx0 : x = 0 := by simpa using hx2
        subst hx0
        have hsum0 : 0 ≤ (t.tilings.map Tiling.Tiles).sum := by
          have := fBT_nonneg hwf t.NumTilings
          rwa [fBT_total] at this
        refine ⟨le_refl 0, ?_⟩
        have hbu : t.biasUnit = 1 := by simp [TileCoder.biasUnit, hB]
        rw [TileCoder.VecLength, hbu]
        linarith
  have hlenidx : (t.EncodeIndices v σ).length =
      t.NumTilings + (if t.includeBias then 1 else 0) := by
    rw [TileCoder.EncodeIndices, List.length_append, List.length_map]
    have hσl : σ.length = t.NumTilings := by simpa using hσ.length_eq
    rw [hσl]
    cases t.includeBias <;> simp
  refine ⟨hpair, hbnd, ?_, ?_, ?_⟩
  · rw [TileCoder.Encode, scatterOnes_length]
  · rw [TileCoder.Encode, scatterOnes]
    apply scatter_foldl_mem
    intro q hq
    exact Or.inl (List.eq_of_mem_replicate hq)
  · have hndn : (t.EncodeIndices v σ).map Int.toNat |>.Nodup := by
      show List.Pairwise (fun a b => a ≠ b)
        ((t.EncodeIndices v σ).map Int.toNat)
      rw [List.pairwise_map]
      refine List.Pairwise.imp_of_mem ?_ hpair
      intro a b ha hb hne
      have ha0 := (hbnd a ha).1
      have hb0 := (hbnd b hb).1
      omega
    have hmemlen : ∀ i ∈ (t.EncodeIndices v σ).map Int.toNat,
        i < (List.replicate t.VecLength.toNat (0 : ℚ)).length := by
      intro i hi
      rw [List.length_replicate]
      obtain ⟨x, hx, rfl⟩ := List.mem_map.mp hi
      have h0 := (hbnd x hx).1
      have h1 := (hbnd x hx).2
      omega
    have hzero : ∀ i ∈ (t.EncodeIndices v σ).map Int.toNat,
        (List.replicate t.VecLength.toNat (0 : ℚ)).getD i 1 = 0 := by
      intro i hi
      have hilen : i < t.VecLength.toNat := by
        have := hmemlen i hi
        rwa [List.length_replicate] at this
      rw [List.getD_eq_getElem?_getD, List.getElem?_replicate, if_pos hilen]
      rfl
    have hcnt0 : (List.replicate t.VecLength.toNat (0 : ℚ)).count 1 = 0 := by
      simp [List.count_replicate]
    have hfold : scatterOnes t.VecLength.toNat (t.EncodeIndices v σ) =
        ((t.EncodeIndices v σ).map Int.toNat).foldl
          (fun a i => a.set i 1) (List.replicate t.VecLength.toNat (0 : ℚ)) := by
      rw [scatterOnes, List.foldl_map]
    rw [TileCoder.Encode, hfold,
      scatter_count _ _ hndn hmemlen hzero, hcnt0, List.length_map, hlenidx]
    exact Nat.zero_add _

/-- C10 witness: the statement instantiated at the two-tiling bias coder
with the in-order arrival. -/
theorem C10_distinct_indices_witness :
    ([0, 1] : List ℕ).Perm (List.range tcB.NumTilings) ∧ tcB.Wellformed ∧
    ((tcB.EncodeIndices [0] [0, 1]).Pairwise (· ≠ ·) ∧
    (∀ x ∈ tcB.EncodeIndices [0] [0, 1], 0 ≤ x ∧ x ≤ tcB.VecLength - 1) ∧
    (tcB.Encode [0] [0, 1]).length = tcB.VecLength.toNat ∧
    (∀ q ∈ tcB.Encode [0] [0, 1], q = 0 ∨ q = 1) ∧
    (tcB.Encode [0] [0, 1]).count 1 =
      tcB.NumTilings + (if tcB.includeBias then 1 else 0)) := by
  have hwf : tcB.Wellformed := by
    intro til htil
    have : til = T1 ∨ til = T2 := by simpa [tcB] using htil
    rcases this with rfl | rfl
    · refine ⟨by decide, ?_⟩
      intro bl hbl
      have : bl = 1 := by simpa [T1] using hbl
      rw [this]
      norm_num
    · refine ⟨by decide, ?_⟩
      intro bl hbl
      have : bl = 1/2 := by simpa [T2] using hbl
      rw [this]
      norm_num
  exact ⟨by decide, hwf, C10_distinct_indices tcB [0] [0, 1] (by decide) hwf⟩

/-- C1 counterexample: with two tilings whose per-tiling entries are 0
and 1, the arrival order that delivers tiling 1 first is a legal run of
the concurrent collector, and then entry 0 of EncodeIndices is 1, not
the value featuresBeforeTiling(0) + tilings(0).Index(v) + 0 = 0 that
the claim assigns to position 0. -/
theorem C1_counterexample :
    ([1, 0] : List ℕ).Perm (List.range tc2.NumTilings) ∧
    (tc2.EncodeIndices [0] [1, 0]).getD 0 0 ≠
      tc2.featuresBeforeTiling 0 + (tc2.tilings.getD 0 default).Index [0] +
        tc2.biasUnit := by
  constructor
  · decide
  · norm_num [TileCoder.EncodeIndices, TileCoder.encodeWithTiling,
      TileCoder.featuresBeforeTiling, TileCoder.biasUnit, tc2, T1, T2,
      Tiling.Index, Tiling.dims, Tiling.dimTile, dimTileAt, indexCore, strideHead,
      Tiling.Tiles, prod, Clip, List.range_succ]

end GoTile
